import Mathlib

/-!
Verification of the `golf` one-liner driver and its runtime prelude.

Go strings are modelled as lists of characters (`GoStr`); machine `int`s as
`Int` with explicit clamping at the 64-bit bounds where the library clamps.
Each definition is a shallow embedding of the corresponding Go function,
keeping its name where Lean allows it.
-/

namespace Golf

/-- A Go string, modelled as its list of characters. -/
abbrev GoStr := List Char

/-- Convenience conversion from a Lean string literal to a `GoStr`. -/
def gs (s : String) : GoStr := s.toList

/-!
## Prelude: `Field`

Embedding of `prelude.Field`.  The Go source switches on the sign of `n`
(`n == 0` joins with `OFS`; `n < 0` becomes `len(Fields) + n`; `n > 0` is
decremented), then bound-checks and returns `""` (with an optional warning)
out of range, else indexes `Fields`.
-/

/-- Field retrieves a split field: embedding of `prelude.Field`, with the
package-level `Fields` and `OFS` variables passed explicitly. -/
def Field (Fields : List GoStr) (OFS : GoStr) (n : Int) : GoStr :=
  if n = 0 then
    List.intercalate OFS Fields
  else
    let n1 : Int := if n < 0 then (Fields.length : Int) + n else n - 1
    if n1 < 0 ∨ n1 > (Fields.length : Int) - 1 then
      []
    else
      Fields.getD n1.toNat []

/-- Helper for the field-accessor claim: on a non-empty field list the indexes
`-1` and `len` run through the two sign branches to the same element. -/
theorem field_aux_neg (Fields : List GoStr) (OFS : GoStr)
    (hlen : 1 ≤ (Fields.length : Int)) :
    Field Fields OFS (-1) = Field Fields OFS (Fields.length : Int) := by
  have hne1 : (-1 : Int) ≠ 0 := by omega
  have hneL : (Fields.length : Int) ≠ 0 := by omega
  have h1 : (-1 : Int) < 0 := by omega
  have h2 : ¬ ((Fields.length : Int) < 0) := by omega
  simp only [Field, if_neg hne1, if_neg hneL, h1, if_true, h2, if_false]
  have e1 : (Fields.length : Int) + (-1) = (Fields.length : Int) - 1 := by ring
  rw [e1]

/-- C1: `Field 0` rejoins the fields with `OFS`; a positive index is 1-based;
a negative index counts from the end (so on a non-empty sequence `Field (-1)`
equals `Field len`); any index of magnitude exceeding the length yields the
empty string instead of failing. -/
theorem field_accessor_policy (Fields : List GoStr) (OFS : GoStr) (n : Int) :
    (Field Fields OFS 0 = List.intercalate OFS Fields) ∧
    (1 ≤ n → n ≤ (Fields.length : Int) →
      Field Fields OFS n = Fields.getD (n - 1).toNat []) ∧
    (-(Fields.length : Int) ≤ n → n ≤ -1 →
      Field Fields OFS n = Fields.getD ((Fields.length : Int) + n).toNat []) ∧
    (Fields ≠ [] → Field Fields OFS (-1) = Field Fields OFS (Fields.length : Int)) ∧
    (Fields.length < n.natAbs → Field Fields OFS n = []) := by
  refine ⟨?_, ?_, ?_, ?_, ?_⟩
  · simp [Field]
  · intro ha hb
    have hne : n ≠ 0 := by omega
    have hnlt : ¬ n < 0 := by omega
    simp only [Field, if_neg hne, hnlt, if_false]
    rw [if_neg]
    omega
  · intro ha hb
    have hne : n ≠ 0 := by omega
    have hnlt : n < 0 := by omega
    simp only [Field, if_neg hne, hnlt, if_true]
    rw [if_neg]
    omega
  · intro hne
    have hlen : 1 ≤ (Fields.length : Int) := by
      have := List.length_pos.mpr hne
      omega
    exact field_aux_neg Fields OFS hlen
  · intro hgt
    rcases lt_trichotomy n 0 with hlt | heq | hpos
    · have hne : n ≠ 0 := by omega
      simp only [Field, if_neg hne, hlt, if_true]
      rw [if_pos]
      omega
    · subst heq
      simp at hgt
    · have hne : n ≠ 0 := by omega
      have hnlt : ¬ n < 0 := by omega
      simp only [Field, if_neg hne, hnlt, if_false]
      rw [if_pos]
      omega

/-- Witness for `field_accessor_policy` at concrete inputs. -/
theorem field_accessor_policy_witness :
    Field [gs "a", gs "b", gs "c"] (gs " ") 2 = gs "b" ∧
    Field [gs "a", gs "b", gs "c"] (gs " ") (-1) =
      Field [gs "a", gs "b", gs "c"] (gs " ") 3 ∧
    Field [gs "a", gs "b", gs "c"] (gs " ") 10 = [] := by
  refine ⟨?_, ?_, ?_⟩
  · have h := (field_accessor_policy [gs "a", gs "b", gs "c"] (gs " ") 2).2.1
      (by decide) (by decide)
    rw [h]; decide
  · exact (field_accessor_policy [gs "a", gs "b", gs "c"] (gs " ") (-1)).2.2.2.1
      (by decide)
  · exact (field_accessor_policy [gs "a", gs "b", gs "c"] (gs " ") 10).2.2.2.2
      (by decide)

/-!
## String-searching helpers

`goIndexOf` embeds `strings.Index` (index of the first occurrence of a
pattern, scanning left to right); `goContains` embeds `strings.Contains`;
`replaceLoop`/`goReplaceAll` embed `strings.Replace(s, old, new, -1)`
(`strings.ReplaceAll`).
-/

/-- Index of the first occurrence of `pat` in a string, as in `strings.Index`
(`none` when absent). -/
def goIndexOf (pat : GoStr) : GoStr → Option Nat
  | [] => if pat.isPrefixOf [] then some 0 else none
  | c :: t =>
    if pat.isPrefixOf (c :: t) then some 0 else (goIndexOf pat t).map (· + 1)

/-- Embedding of `strings.Contains`. -/
def goContains (s sub : GoStr) : Bool := (goIndexOf sub s).isSome

/-- A prefix is never longer than the whole string. -/
theorem isPrefixOf_length_le (pat : GoStr) :
    ∀ s : GoStr, pat.isPrefixOf s = true → pat.length ≤ s.length := by
  induction pat with
  | nil => intro s _; simp
  | cons a as ih =>
    intro s h
    cases s with
    | nil => simp [List.isPrefixOf] at h
    | cons b bs =>
      simp only [List.isPrefixOf, Bool.and_eq_true] at h
      have := ih bs h.2
      simp [List.length_cons]
      omega

/-- A found occurrence lies inside the string. -/
theorem goIndexOf_bound (pat : GoStr) :
    ∀ s i, goIndexOf pat s = some i → i + pat.length ≤ s.length := by
  intro s
  induction s with
  | nil =>
    intro i h
    simp only [goIndexOf] at h
    by_cases hp : pat.isPrefixOf [] = true
    · rw [if_pos hp] at h
      have := isPrefixOf_length_le pat [] hp
      cases h
      simpa using this
    · rw [if_neg hp] at h
      cases h
  | cons c t ih =>
    intro i h
    simp only [goIndexOf] at h
    by_cases hp : pat.isPrefixOf (c :: t) = true
    · rw [if_pos hp] at h
      cases h
      simpa using isPrefixOf_length_le pat (c :: t) hp
    · rw [if_neg hp] at h
      obtain ⟨j, hj, hij⟩ := Option.map_eq_some'.mp h
      have := ih j hj
      subst hij
      simp [List.length_cons]
      omega

/-- The replacement loop of `strings.Replace` with count `-1`: repeatedly find
the leftmost occurrence of `old`, emit the text before it and `new`, and
continue after the occurrence. -/
def replaceLoop (old new : GoStr) (hold : old ≠ []) (s : GoStr) : GoStr :=
  match hidx : goIndexOf old s with
  | none => s
  | some i => s.take i ++ new ++ replaceLoop old new hold (s.drop (i + old.length))
termination_by s.length
decreasing_by
  have hb := goIndexOf_bound old s _ hidx
  have h1 : 0 < old.length := List.length_pos.mpr hold
  simp [List.length_drop]
  omega

/-- Unfolding equation of `replaceLoop` when no occurrence remains. -/
theorem replaceLoop_eq_none (old new : GoStr) (hold : old ≠ []) (s : GoStr)
    (h : goIndexOf old s = none) : replaceLoop old new hold s = s := by
  rw [replaceLoop, h]

/-- Unfolding equation of `replaceLoop` at a found occurrence. -/
theorem replaceLoop_eq_some (old new : GoStr) (hold : old ≠ []) (s : GoStr)
    (i : Nat) (h : goIndexOf old s = some i) :
    replaceLoop old new hold s =
      s.take i ++ new ++ replaceLoop old new hold (s.drop (i + old.length)) := by
  rw [replaceLoop, h]

/-- Replacement behavior of `strings.Replace` for the empty pattern: `new` is
inserted before every character and at the end. -/
def emptyPatReplace (new : GoStr) : GoStr → GoStr
  | [] => new
  | a :: t => new ++ a :: emptyPatReplace new t

/-- Embedding of `strings.ReplaceAll`. -/
def goReplaceAll (s old new : GoStr) : GoStr :=
  if hold : old = [] then emptyPatReplace new s
  else replaceLoop old new hold s

/-- Pointwise substitution of a single character: the specification-side
reading of "every occurrence of the marker is replaced". -/
def substChar (c : Char) (new : GoStr) : GoStr → GoStr
  | [] => []
  | a :: t => (if a = c then new else [a]) ++ substChar c new t

/-- Searching for a single character fails exactly when it is absent. -/
theorem goIndexOf_single_none (c : Char) :
    ∀ s : GoStr, goIndexOf [c] s = none ↔ c ∉ s := by
  intro s
  induction s with
  | nil => simp [goIndexOf, List.isPrefixOf]
  | cons a t ih =>
    by_cases hca : c = a
    · subst hca
      have hp : ([c] : GoStr).isPrefixOf (c :: t) = true := by
        simp [List.isPrefixOf]
      simp [goIndexOf, hp]
    · have hp : ([c] : GoStr).isPrefixOf (a :: t) = false := by
        simp [List.isPrefixOf]
        exact hca
      simp [goIndexOf, hp, ih, hca]

/-- `replaceLoop` on a single-character pattern substitutes pointwise. -/
theorem replaceLoop_single (c : Char) (new : GoStr) (hnz : ([c] : GoStr) ≠ []) :
    ∀ s : GoStr, replaceLoop [c] new hnz s = substChar c new s := by
  intro s
  induction s with
  | nil =>
    have h0 : goIndexOf [c] ([] : GoStr) = none := by
      simp [goIndexOf, List.isPrefixOf]
    rw [replaceLoop_eq_none _ _ _ _ h0, substChar]
  | cons a t ih =>
    by_cases hca : c = a
    · subst hca
      have h0 : goIndexOf [c] (c :: t) = some 0 := by
        simp [goIndexOf, List.isPrefixOf]
      rw [replaceLoop_eq_some _ _ _ _ _ h0]
      simp [substChar, ih]
    · have hp : ([c] : GoStr).isPrefixOf (a :: t) = false := by
        simp [List.isPrefixOf]
        exact hca
      have heq : goIndexOf [c] (a :: t) = (goIndexOf [c] t).map (· + 1) := by
        simp [goIndexOf, hp]
      have hane : a ≠ c := fun h => hca h.symm
      cases ht : goIndexOf [c] t with
      | none =>
        have h0 : goIndexOf [c] (a :: t) = none := by rw [heq, ht]; rfl
        rw [replaceLoop_eq_none _ _ _ _ h0]
        have ht2 := replaceLoop_eq_none [c] new hnz t ht
        rw [ht2] at ih
        simp only [substChar, if_neg hane]
        rw [← ih]
        simp
      | some j =>
        have h0 : goIndexOf [c] (a :: t) = some (j + 1) := by rw [heq, ht]; rfl
        rw [replaceLoop_eq_some _ _ _ _ _ h0]
        have ht2 := replaceLoop_eq_some [c] new hnz t j ht
        rw [ht2] at ih
        simp only [substChar, if_neg hane]
        rw [← ih]
        simp [List.take_succ_cons, List.drop_succ_cons]

/-!
## Prelude: `BackupName`

Embedding of `prelude.BackupName`: if the pattern contains a `*`, every `*`
is replaced with the original filename, otherwise the pattern is appended to
it as a suffix.
-/

/-- BackupName returns the filename used as a backup in in-place edit mode:
embedding of `prelude.BackupName`. -/
def BackupName (orig ext : GoStr) : GoStr :=
  if goContains ext (gs "*") then goReplaceAll ext (gs "*") orig
  else orig ++ ext

/-- C9: the backup name is the pattern appended as a literal suffix when it
has no `*`, and otherwise the pattern with every `*` replaced by the original
name; in particular `BackupName "f" ".bak" = "f.bak"` and
`BackupName "f" "orig_*" = "orig_f"`. -/
theorem backup_name_policy (orig ext : GoStr) :
    ('*' ∉ ext → BackupName orig ext = orig ++ ext) ∧
    ('*' ∈ ext → BackupName orig ext = substChar '*' orig ext) ∧
    BackupName (gs "f") (gs ".bak") = gs "f.bak" ∧
    BackupName (gs "f") (gs "orig_*") = gs "orig_f" := by
  have hgen : ∀ o e : GoStr, ('*' ∉ e → BackupName o e = o ++ e) ∧
      ('*' ∈ e → BackupName o e = substChar '*' o e) := by
    intro o e
    constructor
    · intro hmem
      have hc : goContains e (gs "*") = false := by
        have := (goIndexOf_single_none '*' e).mpr hmem
        simp [goContains, gs]
        exact this
      simp [BackupName, hc]
    · intro hmem
      have hc : goContains e (gs "*") = true := by
        simp [goContains, gs, Option.isSome_iff_ne_none]
        intro hnone
        exact absurd hmem ((goIndexOf_single_none '*' e).mp hnone)
      have hrw : goReplaceAll e (gs "*") o = substChar '*' o e := by
        rw [goReplaceAll, dif_neg (by simp [gs] : (gs "*" : GoStr) ≠ [])]
        exact replaceLoop_single '*' o _ e
      simp [BackupName, hc, hrw]
  refine ⟨(hgen orig ext).1, (hgen orig ext).2, ?_, ?_⟩
  · rw [(hgen (gs "f") (gs ".bak")).1 (by decide)]
    decide
  · rw [(hgen (gs "f") (gs "orig_*")).2 (by decide)]
    decide

/-- Witness for `backup_name_policy` at concrete inputs. -/
theorem backup_name_policy_witness :
    BackupName (gs "f") (gs ".my") = gs "f.my" ∧
    BackupName (gs "x") (gs "*~") = gs "x~" := by
  constructor
  · have h := (backup_name_policy (gs "f") (gs ".my")).1 (by decide)
    rw [h]
    decide
  · have h := (backup_name_policy (gs "x") (gs "*~")).2.1 (by decide)
    rw [h]
    decide

/-!
## Prelude: `GAtoi`

`strconv.Atoi` is `strconv.ParseInt(s, 10, 0)` converted to `int` (64-bit on
the supported targets): an optional sign followed by one or more decimal
digits; on a syntax error it returns `(0, ErrSyntax)`, and on a value outside
the `int64` range it returns the nearest bound with `ErrRange`.  `GAtoi`
returns `Atoi`'s value unconditionally and warns (never fatally) on an error
when warnings are enabled.
-/

/-- Decimal digit test. -/
def isDigitChar (c : Char) : Bool := '0' ≤ c && c ≤ '9'

/-- The mathematical value parsed by `strconv.Atoi` when the syntax is valid
(optional `+`/`-` sign, then one or more decimal digits), `none` otherwise. -/
def atoiCore (s : GoStr) : Option Int :=
  let (neg, ds) :=
    match s with
    | '-' :: t => (true, t)
    | '+' :: t => (false, t)
    | t => (false, t)
  if ds = [] || ds.any (fun c => !isDigitChar c) then none
  else
    let v : Nat := ds.foldl (fun acc c => acc * 10 + (c.toNat - '0'.toNat)) 0
    some (if neg then -(v : Int) else (v : Int))

/-- The largest `int64` value. -/
def maxInt64 : Int := 9223372036854775807

/-- The smallest `int64` value. -/
def minInt64 : Int := -9223372036854775808

/-- Embedding of `strconv.Atoi` on 64-bit `int`: the pair is the returned
value and whether a non-nil error accompanied it. -/
def goAtoi (s : GoStr) : Int × Bool :=
  match atoiCore s with
  | none => (0, true)
  | some v =>
    if v > maxInt64 then (maxInt64, true)
    else if v < minInt64 then (minInt64, true)
    else (v, false)

/-- GAtoi calls `strconv.Atoi` and issues an optional warning on error:
embedding of `prelude.GAtoi`, with the package-level `Warnings` variable
passed explicitly.  The pair is the returned value and whether a warning was
printed. -/
def GAtoi (Warnings : Bool) (s : GoStr) : Int × Bool :=
  let r := goAtoi s
  (r.1, r.2 && Warnings)

/-- C6 counterexample: the twenty-nines string does not parse as an integer
(`Atoi` reports an error on it), yet `GAtoi` returns the saturated `int64`
bound rather than zero. -/
theorem gatoi_range_counterexample :
    (goAtoi (gs "99999999999999999999")).2 = true ∧
    (GAtoi false (gs "99999999999999999999")).1 = 9223372036854775807 ∧
    (GAtoi false (gs "99999999999999999999")).1 ≠ 0 := by
  refine ⟨?_, ?_, ?_⟩ <;> decide

/-- C6 amended: on input that is not a syntactically valid integer `GAtoi`
returns zero; it never terminates the program, and it warns exactly when
`Atoi` errored and warnings are enabled; on syntactically valid input beyond
the `int64` range it returns the saturated bound instead of zero. -/
theorem gatoi_amended (w : Bool) (s : GoStr) :
    (atoiCore s = none → GAtoi w s = (0, w)) ∧
    ((GAtoi w s).2 = true → w = true) ∧
    (∀ v, atoiCore s = some v → maxInt64 < v → GAtoi w s = (maxInt64, w)) ∧
    (∀ v, atoiCore s = some v → v < minInt64 → GAtoi w s = (minInt64, w)) := by
  refine ⟨?_, ?_, ?_, ?_⟩
  · intro h
    simp [GAtoi, goAtoi, h]
  · intro h
    simp [GAtoi] at h
    exact h.2
  · intro v hv hgt
    simp [GAtoi, goAtoi, hv]
    rw [if_pos (by omega : v > maxInt64)]
    simp
  · intro v hv hlt
    have hng : ¬ v > maxInt64 := by
      simp [maxInt64]
      simp [minInt64] at hlt
      omega
    simp [GAtoi, goAtoi, hv]
    rw [if_neg hng, if_pos (by omega : v < minInt64)]
    simp

/-- Witness for `gatoi_amended` at concrete inputs. -/
theorem gatoi_amended_witness :
    GAtoi true (gs "abc") = (0, true) ∧
    GAtoi false (gs "abc") = (0, false) ∧
    GAtoi true (gs "-99999999999999999999") = (minInt64, true) := by
  refine ⟨?_, ?_, ?_⟩
  · exact (gatoi_amended true (gs "abc")).1 (by decide)
  · exact (gatoi_amended false (gs "abc")).1 (by decide)
  · exact (gatoi_amended true (gs "-99999999999999999999")).2.2.2
      (-99999999999999999999) (by decide) (by decide)

/-!
## Line-mode scaffold: the in-place file-boundary step

Embedding of the file-boundary section of the synthesized program (template
`program` in the golf command source): open the input, then in in-place mode
unlink it (no backup pattern) or rename it to its backup name (backup
pattern given), then create the replacement output file.

The Go template writes the rename step as

  `if os.Rename(Filename, bakname); err != nil { Die(...) }`

so `os.Rename`'s return value is discarded (the call is only the `if`'s init
statement) and the condition re-reads the `err` bound earlier by
`_golfFile, err := os.Open(Filename)`, which is nil on every path that
reaches this point.  The `Die("golf: in-place backup: ...")` branch is
therefore dead code, and a rename failure is silently ignored.
-/

/-- Outcome of one filesystem call at the file boundary. -/
inductive FsRes where
  | ok
  | fail
deriving Repr, DecidableEq

/-- The outcomes the filesystem gives to the four boundary calls. -/
structure BoundaryFs where
  openRes : FsRes
  removeRes : FsRes
  renameRes : FsRes
  createRes : FsRes
deriving Repr, DecidableEq

/-- Result of the boundary step: a `Die` exit naming the failed step, or
fall-through into line processing. -/
inductive BoundaryOut where
  | dieOpen
  | dieRemove
  | dieRename
  | dieCreate
  | proceed
deriving Repr, DecidableEq

/-- Embedding of the per-file boundary code of the synthesized scaffold. -/
def fileBoundary (inPlace : Bool) (bak : GoStr) (fs : BoundaryFs) : BoundaryOut :=
  match fs.openRes with
  | .fail => .dieOpen
  | .ok =>
    if inPlace then
      if bak = [] then
        match fs.removeRes with
        | .fail => .dieRemove
        | .ok =>
          match fs.createRes with
          | .fail => .dieCreate
          | .ok => .proceed
      else
        -- The rename executes, but its error is discarded and the stale nil
        -- `err` from os.Open is tested, so control always reaches os.Create
        -- regardless of `fs.renameRes`.
        match fs.createRes with
        | .fail => .dieCreate
        | .ok => .proceed
    else .proceed

/-- C2: contrary to the claim, a failing rename of the original file to its
backup name is not fatal: the scaffold proceeds to create the output (the
rename-failure `Die` is unreachable), while open, unlink and create failures
do die. -/
theorem inplace_rename_failure_not_fatal :
    fileBoundary true (gs ".bak")
      ⟨FsRes.ok, FsRes.ok, FsRes.fail, FsRes.ok⟩ = BoundaryOut.proceed ∧
    (∀ (ip : Bool) (bak : GoStr) (fs : BoundaryFs),
      fileBoundary ip bak fs ≠ BoundaryOut.dieRename) ∧
    fileBoundary true [] ⟨FsRes.ok, FsRes.fail, FsRes.ok, FsRes.ok⟩ =
      BoundaryOut.dieRemove ∧
    fileBoundary true (gs ".bak")
      ⟨FsRes.fail, FsRes.ok, FsRes.ok, FsRes.ok⟩ = BoundaryOut.dieOpen ∧
    fileBoundary true (gs ".bak")
      ⟨FsRes.ok, FsRes.ok, FsRes.fail, FsRes.fail⟩ = BoundaryOut.dieCreate := by
  refine ⟨by decide, ?_, by decide, by decide, by decide⟩
  intro ip bak fs
  rcases fs with ⟨o, rm, rn, cr⟩
  cases o <;> cases rm <;> cases rn <;> cases cr <;> cases ip <;>
    simp [fileBoundary] <;> split <;> simp

/-!
## Driver: `do` and the final step of `Prog.run`

`do` runs a command with inherited stdio: a non-nil `cmd.Run` error (either
a start failure or the `*exec.ExitError` of a non-zero child exit) is
returned as-is, and otherwise a non-zero `ProcessState.ExitCode` would be
reported as `errGolf`.  `Prog.run`'s final step calls `do` on the built
binary and returns 1 on any error, else 0.
-/

/-- How the child process ran. -/
inductive ChildRun where
  | startFail
  | exited (code : Nat)
deriving Repr, DecidableEq

/-- Errors `do` can return. -/
inductive DoErr where
  | runErr
  | exitErr (code : Nat)
  | golfErr
deriving Repr, DecidableEq

/-- The error returned by `exec.Cmd.Run`: non-nil on a start failure and on
a non-zero exit (an `*exec.ExitError` carrying the code). -/
def cmdRun : ChildRun → Option DoErr
  | .startFail => some DoErr.runErr
  | .exited c => if c ≠ 0 then some (DoErr.exitErr c) else none

/-- Embedding of the golf command's `do`: propagate `cmd.Run`'s error, then
report `errGolf` on a non-zero exit code. -/
def doCmd (r : ChildRun) : Option DoErr :=
  match cmdRun r with
  | some e => some e
  | none =>
    match r with
    | .exited c => if c ≠ 0 then some DoErr.golfErr else none
    | .startFail => some DoErr.golfErr

/-- The final step of `Prog.run`: run the built program via `do` and return
1 on any error, 0 otherwise. -/
def runFinalStep (r : ChildRun) : Nat :=
  match doCmd r with
  | some _ => 1
  | none => 0

/-- C3 counterexample: a child exiting with status 7 makes `run` return 1,
not 7 — the exit code is not propagated unchanged. -/
theorem run_exit_code_counterexample :
    runFinalStep (ChildRun.exited 7) = 1 ∧ (1 : Nat) ≠ 7 := by
  decide

/-- C3 amended: `run` preserves only success/failure of the child: it
returns 0 when the generated program exits 0 and 1 for every other exit
status (and on a start failure). -/
theorem run_exit_code_amended (c : Nat) :
    runFinalStep (ChildRun.exited c) = (if c = 0 then 0 else 1) ∧
    runFinalStep ChildRun.startFail = 1 := by
  constructor
  · by_cases h : c = 0 <;> simp [runFinalStep, doCmd, cmdRun, h]
  · decide

/-!
## Flag clustering: `decluster`

Embedding of the golf command's `decluster`, which rewrites `os.Args` before
`flag.Parse`: a token starting with `-` that is not a registered long flag is
split into one `-x` token per letter, erroring out (usage exit) when a
non-final letter is not a no-argument boolean flag; at a literal `--` the
remaining arguments are appended verbatim — the source appends `os.Args[i:]`
where `i` indexes `os.Args[1:]`, i.e. starting one token before the `--`;
and `v[0]` is read without a length check, which panics on an empty
argument.
-/

/-- The registered flag names longer than one character (`longFlags` as
computed by `init`). -/
def longFlags (s : GoStr) : Bool :=
  s = gs "BEGIN" || s = gs "END" || s = gs "goVer" || s = gs "help"

/-- The registered single-letter boolean flag names (`shortBoolFlags` as
computed by `init`). -/
def shortBoolFlags (s : GoStr) : Bool :=
  s = gs "n" || s = gs "l" || s = gs "p" || s = gs "g" || s = gs "a" ||
  s = gs "i" || s = gs "k" || s = gs "w" || s = gs "h"

/-- Result of `decluster`: a runtime panic (out-of-range index), a usage
error exit, or the rewritten argument vector. -/
inductive DeclusterResult where
  | panicked
  | usageExit
  | ok (args : List GoStr)
deriving Repr, DecidableEq

/-- The inner loop of `decluster` over the letters of one cluster token:
`vlen` is the byte length of the whole token and `j` the letter index; a
non-final letter that is not a boolean flag is a usage error. -/
def expandCluster (vlen : Nat) : Nat → List Char → Except Unit (List GoStr)
  | _, [] => Except.ok []
  | j, c :: cs =>
    if j < vlen - 2 && !(shortBoolFlags [c]) then Except.error ()
    else
      match expandCluster vlen (j + 1) cs with
      | Except.error e => Except.error e
      | Except.ok l => Except.ok (['-', c] :: l)

/-- The main loop of `decluster`: `args` is the full original vector, the
second argument the tokens still to process (a suffix of `args.drop 1`),
`i` the current index into `args.drop 1`, and `res` the output accumulator. -/
def declusterAux (args : List GoStr) : List GoStr → Nat → List GoStr → DeclusterResult
  | [], _, res => DeclusterResult.ok res
  | v :: vs, i, res =>
    match v with
    | [] => DeclusterResult.panicked
    | c :: _ =>
      if c ≠ '-' || longFlags (v.drop 1) then
        declusterAux args vs (i + 1) (res ++ [v])
      else if v = gs "--" then
        DeclusterResult.ok (res ++ args.drop i)
      else
        match expandCluster v.length 0 (v.drop 1) with
        | Except.error _ => DeclusterResult.usageExit
        | Except.ok ex => declusterAux args vs (i + 1) (res ++ ex)

/-- Embedding of `decluster` on the whole `os.Args` vector. -/
def declusterGo : List GoStr → DeclusterResult
  | [] => DeclusterResult.panicked
  | a0 :: rest => declusterAux (a0 :: rest) rest 0 [a0]

/-- C4: at `--`, decluster appends `os.Args[i:]` with `i` indexing
`os.Args[1:]`, so the token before the `--` (here the program name itself)
is inserted again ahead of the pass-through arguments instead of exactly
the arguments that followed `--`. -/
theorem decluster_dashdash_duplicates :
    declusterGo [gs "golf", gs "--", gs "x"] =
      DeclusterResult.ok [gs "golf", gs "golf", gs "--", gs "x"] ∧
    declusterGo [gs "golf", gs "-n", gs "--", gs "file"] =
      DeclusterResult.ok [gs "golf", gs "-n", gs "-n", gs "--", gs "file"] := by
  constructor <;> decide

/-- C10: decluster reads `v[0]` without a length check, so an empty-string
argument (as in the documented `golf -pe '' FILE` invocation) makes flag
processing panic with an out-of-range index. -/
theorem decluster_empty_arg_panics :
    declusterGo [gs "golf", gs "-pe", gs "", gs "FILE1"] =
      DeclusterResult.panicked := by
  decide

/-!
## Flag parsing and the synthesis-parameter record

The standard `flag` library is an external collaborator; this section models
its documented parsing loop on the command's registered flags: `-x` (or
`--x`) sets a flag, a boolean flag takes an optional `=value`, a non-boolean
flag takes `=value` or the next argument, a bare `--` terminates flag
parsing, and the first non-flag argument stops parsing with the remainder
as positional arguments.  Parse errors make the process exit.  `-h`/`-help`
share one variable, as do `-b`/`-BEGIN` and `-E`/`-END` (repeatable flags
append).  On top of this sits the embedding of the command's `main`:
the `-F` visit hook, the flag implications, the import list and `dedupe`,
producing the `Prog` record handed to the synthesizer.
-/

/-- The parsed flag variables of the command, with their registered default
values.  `fSet` records whether `-F` was set (for the `flag.Visit` hook). -/
structure FlagState where
  rawSrc : GoStr := []
  flgN : Bool := false
  flgL : Bool := false
  flgP : Bool := false
  flgG : Bool := false
  flgA : Bool := false
  flgF : GoStr := gs " "
  inplace : Bool := false
  inplaceBak : GoStr := []
  flgKeep : Bool := false
  warnings : Bool := false
  goVer : GoStr := gs "1.17"
  help : Bool := false
  modules : List GoStr := []
  beginSrc : List GoStr := []
  endSrc : List GoStr := []
  fSet : Bool := false
deriving Repr, DecidableEq

/-- The initial flag state (all registered defaults). -/
def initFlagState : FlagState := {}

/-- All registered boolean flag names. -/
def boolFlagName (s : GoStr) : Bool := shortBoolFlags s || s = gs "help"

/-- All registered value-taking flag names (strings and repeatable lists). -/
def valueFlagName (s : GoStr) : Bool :=
  s = gs "e" || s = gs "F" || s = gs "I" || s = gs "goVer" ||
  s = gs "M" || s = gs "b" || s = gs "BEGIN" || s = gs "E" || s = gs "END"

/-- Embedding of `strconv.ParseBool` (used by `flag` for `-x=value`). -/
def goParseBool (s : GoStr) : Option Bool :=
  if s = gs "1" || s = gs "t" || s = gs "T" || s = gs "TRUE" ||
      s = gs "true" || s = gs "True" then some true
  else if s = gs "0" || s = gs "f" || s = gs "F" || s = gs "FALSE" ||
      s = gs "false" || s = gs "False" then some false
  else none

/-- Store a boolean flag value under its registered name. -/
def setBoolFlag (name : GoStr) (b : Bool) (st : FlagState) : FlagState :=
  if name = gs "n" then { st with flgN := b }
  else if name = gs "l" then { st with flgL := b }
  else if name = gs "p" then { st with flgP := b }
  else if name = gs "g" then { st with flgG := b }
  else if name = gs "a" then { st with flgA := b }
  else if name = gs "i" then { st with inplace := b }
  else if name = gs "k" then { st with flgKeep := b }
  else if name = gs "w" then { st with warnings := b }
  else if name = gs "h" || name = gs "help" then { st with help := b }
  else st

/-- Store a value-taking flag value under its registered name (repeatable
flags append, and the `-F` store records the visit). -/
def setValueFlag (name v : GoStr) (st : FlagState) : FlagState :=
  if name = gs "e" then { st with rawSrc := v }
  else if name = gs "F" then { st with flgF := v, fSet := true }
  else if name = gs "I" then { st with inplaceBak := v }
  else if name = gs "goVer" then { st with goVer := v }
  else if name = gs "M" then { st with modules := st.modules ++ [v] }
  else if name = gs "b" || name = gs "BEGIN" then
    { st with beginSrc := st.beginSrc ++ [v] }
  else if name = gs "E" || name = gs "END" then
    { st with endSrc := st.endSrc ++ [v] }
  else st

/-- Result of `flag.Parse`: an error exit, or the final flag state plus the
positional arguments. -/
inductive ParseResult where
  | errExit
  | ok (st : FlagState) (positional : List GoStr)
deriving Repr, DecidableEq

/-- Result of handling one argument in `flag.Parse`'s loop: parsing stops
with the given positional remainder, fails, or continues with an updated
state and remaining arguments. -/
inductive StepRes where
  | stop (pos : List GoStr)
  | err
  | cont (st : FlagState) (rest : List GoStr)
deriving Repr, DecidableEq

/-- Model of `flag`'s `parseOne` on the first argument `s` (with `rest` the
arguments after it): a too-short or non-dash token stops parsing (it stays
positional), a bare `--` stops parsing consuming itself, a bad name is an
error, a boolean flag takes an optional `=value`, and a value flag takes
`=value` or the next argument. -/
def parseOne (st : FlagState) (s : GoStr) (rest : List GoStr) : StepRes :=
  match s with
  | [] => StepRes.stop (s :: rest)
  | [_] => StepRes.stop (s :: rest)
  | c0 :: c1 :: srest =>
    if c0 ≠ '-' then StepRes.stop (s :: rest)
    else if c1 = '-' && srest = [] then StepRes.stop rest
    else
      let name := if c1 = '-' then srest else c1 :: srest
      match name.head? with
      | none => StepRes.err
      | some nh =>
        if nh = '-' || nh = '=' then StepRes.err
        else
          match goIndexOf (gs "=") name with
          | some ieq =>
            let fname := name.take ieq
            let fvalue := name.drop (ieq + 1)
            if boolFlagName fname then
              match goParseBool fvalue with
              | some b => StepRes.cont (setBoolFlag fname b st) rest
              | none => StepRes.err
            else if valueFlagName fname then
              StepRes.cont (setValueFlag fname fvalue st) rest
            else StepRes.err
          | none =>
            if boolFlagName name then StepRes.cont (setBoolFlag name true st) rest
            else if valueFlagName name then
              match rest with
              | [] => StepRes.err
              | v :: rest2 => StepRes.cont (setValueFlag name v st) rest2
            else StepRes.err

/-- Model of `flag.Parse`'s loop, driven by a fuel counter (each iteration
consumes at least one argument, so `length + 1` fuel never runs out — see
`parseLoopF_fuel_irrelevant`). -/
def parseLoopF : Nat → FlagState → List GoStr → ParseResult
  | 0, _, _ => ParseResult.errExit
  | _ + 1, st, [] => ParseResult.ok st []
  | fuel + 1, st, s :: rest =>
    match parseOne st s rest with
    | StepRes.stop pos => ParseResult.ok st pos
    | StepRes.err => ParseResult.errExit
    | StepRes.cont st2 rest2 => parseLoopF fuel st2 rest2

/-- Model of `flag.Parse` over the (post-decluster) arguments after the
program name. -/
def parseArgs (st : FlagState) (l : List GoStr) : ParseResult :=
  parseLoopF (l.length + 1) st l

/-- Byte-lexicographic string order, as used by `sort.Strings`. -/
def goStrLe : GoStr → GoStr → Bool
  | [], _ => true
  | _ :: _, [] => false
  | x :: xs, y :: ys => if x = y then goStrLe xs ys else decide (x < y)

/-- Ordered insertion for `sortStrings`. -/
def insertStr (x : GoStr) : List GoStr → List GoStr
  | [] => [x]
  | y :: t => if goStrLe x y then x :: y :: t else y :: insertStr x t

/-- Sorting model of `sort.Strings` (same sorted output, by insertion). -/
def sortStrings : List GoStr → List GoStr
  | [] => []
  | x :: t => insertStr x (sortStrings t)

/-- The adjacent-duplicate removal pass of the command's `dedupe` (each kept
element is compared with its predecessor in the sorted input). -/
def dedupeAdjGo (prev : GoStr) : List GoStr → List GoStr
  | [] => []
  | y :: t => if y = prev then dedupeAdjGo y t else y :: dedupeAdjGo y t

/-- Embedding of the command's `dedupe`: sort, then drop equal neighbours. -/
def dedupe (l : List GoStr) : List GoStr :=
  match sortStrings l with
  | [] => []
  | x :: t => x :: dedupeAdjGo x t

/-- The synthesis-parameter record handed to the program synthesizer
(`Prog` in the golf command, minus the constant `Prelude` blob). -/
structure Prog where
  BeginSrc : List GoStr
  RawSrc : GoStr
  EndSrc : List GoStr
  RawArgs : List GoStr
  Imports : List GoStr
  FlgN : Bool
  FlgP : Bool
  FlgL : Bool
  FlgA : Bool
  FlgF : GoStr
  InPlace : Bool
  InPlaceBak : GoStr
  Warnings : Bool
  Goimports : Bool
  Keep : Bool
deriving Repr, DecidableEq

/-- Embedding of `main` after `flag.Parse`: the `flag.Visit` hook makes `-F`
imply `-a`; `-a` and `-p` imply `-n`; `-I` implies `-i`; the import list is
assembled and deduplicated; the `Prog` record is built. -/
def mkProg (st : FlagState) (pos : List GoStr) : Prog :=
  let st1 := if st.fSet then { st with flgA := true } else st
  let flgN := st1.flgN || st1.flgP || st1.flgA
  let inplace := st1.inplace || decide (0 < st1.inplaceBak.length)
  let imps0 : List GoStr :=
    [gs "io", gs "os", gs "regexp", gs "strconv", gs "strings", gs "fmt"]
  let imps1 := if flgN then imps0 ++ [gs "bufio"] else imps0
  let imps2 := if 0 < st1.modules.length then imps1 ++ st1.modules else imps1
  { BeginSrc := st1.beginSrc, RawSrc := st1.rawSrc, EndSrc := st1.endSrc,
    RawArgs := pos, Imports := dedupe imps2, FlgN := flgN, FlgP := st1.flgP,
    FlgL := st1.flgL, FlgA := st1.flgA, FlgF := st1.flgF, InPlace := inplace,
    InPlaceBak := st1.inplaceBak, Warnings := st1.warnings,
    Goimports := st1.flgG, Keep := st1.flgKeep }

/-- Observable outcome of the command's flag processing. -/
inductive GolfOutcome where
  | panicked
  | usageExit
  | parseErr
  | helpExit
  | prog (p : Prog)
deriving Repr, DecidableEq

/-- Embedding of `main`'s flag processing: decluster, parse, help check,
implications, record construction. -/
def golfMain (args : List GoStr) : GolfOutcome :=
  match declusterGo args with
  | DeclusterResult.panicked => GolfOutcome.panicked
  | DeclusterResult.usageExit => GolfOutcome.usageExit
  | DeclusterResult.ok newArgs =>
    match parseArgs initFlagState (newArgs.drop 1) with
    | ParseResult.errExit => GolfOutcome.parseErr
    | ParseResult.ok st pos =>
      if st.help then GolfOutcome.helpExit
      else GolfOutcome.prog (mkProg st pos)

/-- `setBoolFlag` never touches the `-F` value or its set mark. -/
theorem setBoolFlag_keeps_f (name : GoStr) (b : Bool) (st : FlagState) :
    (setBoolFlag name b st).fSet = st.fSet ∧
    (setBoolFlag name b st).flgF = st.flgF := by
  unfold setBoolFlag
  repeat' split
  all_goals exact ⟨rfl, rfl⟩

/-- `setValueFlag` preserves the invariant "an unset `-F` still holds its
default value" (the `-F` store marks the flag as set). -/
theorem setValueFlag_keeps_inv (name v : GoStr) (st : FlagState)
    (hinv : st.fSet = false → st.flgF = gs " ") :
    (setValueFlag name v st).fSet = false → (setValueFlag name v st).flgF = gs " " := by
  unfold setValueFlag
  repeat' split
  all_goals first
    | exact fun h => hinv h
    | exact fun h => absurd h (by simp)

/-- Invariant form of `setBoolFlag_keeps_f`. -/
theorem setBoolFlag_keeps_inv (name : GoStr) (b : Bool) (st : FlagState)
    (hinv : st.fSet = false → st.flgF = gs " ") :
    (setBoolFlag name b st).fSet = false → (setBoolFlag name b st).flgF = gs " " := by
  intro h
  obtain ⟨h1, h2⟩ := setBoolFlag_keeps_f name b st
  rw [h2]
  exact hinv (h1 ▸ h)

/-- `parseOne` never grows the remaining-argument list. -/
theorem parseOne_rest_le (st : FlagState) (s : GoStr) (rest : List GoStr) :
    ∀ st2 rest2, parseOne st s rest = StepRes.cont st2 rest2 →
      rest2.length ≤ rest.length := by
  intro st2 rest2 h
  unfold parseOne at h
  repeat' (first | split at h | dsimp only [] at h)
  all_goals first
    | exact StepRes.noConfusion h
    | (injection h with h1 h2; subst h2; exact Nat.le_refl _)
    | (injection h with h1 h2; subst h2; simp)

/-- Fuel beyond the argument count does not matter to `parseLoopF`. -/
theorem parseLoopF_fuel_irrelevant :
    ∀ (f1 f2 : Nat) (st : FlagState) (l : List GoStr),
      l.length < f1 → l.length < f2 →
      parseLoopF f1 st l = parseLoopF f2 st l := by
  intro f1
  induction f1 with
  | zero => intro f2 st l h1 h2; omega
  | succ f1 ih =>
    intro f2 st l h1 h2
    cases f2 with
    | zero => omega
    | succ f2 =>
      cases l with
      | nil => rfl
      | cons s rest =>
        simp only [parseLoopF]
        cases hstep : parseOne st s rest with
        | stop pos => rfl
        | err => rfl
        | cont st2 rest2 =>
          have hle := parseOne_rest_le st s rest st2 rest2 hstep
          simp only [List.length_cons] at h1 h2
          exact ih f2 st2 rest2 (by omega) (by omega)

/-- A single parse step preserves the invariant "an unset `-F` still holds
its default value". -/
theorem parseOne_fset_inv (st : FlagState) (s : GoStr) (rest : List GoStr)
    (st2 : FlagState) (rest2 : List GoStr)
    (h : parseOne st s rest = StepRes.cont st2 rest2)
    (hinv : st.fSet = false → st.flgF = gs " ") :
    st2.fSet = false → st2.flgF = gs " " := by
  unfold parseOne at h
  repeat' (first | split at h | dsimp only [] at h)
  all_goals first
    | exact StepRes.noConfusion h
    | (injection h with h1 h2; subst h1; exact setBoolFlag_keeps_inv _ _ _ hinv)
    | (injection h with h1 h2; subst h1; exact setValueFlag_keeps_inv _ _ _ hinv)

/-- The parse loop preserves the invariant "an unset `-F` still holds its
default value". -/
theorem parseLoopF_fset_invariant :
    ∀ (fuel : Nat) (st : FlagState) (l : List GoStr) (st' : FlagState)
      (pos : List GoStr),
      parseLoopF fuel st l = ParseResult.ok st' pos →
      (st.fSet = false → st.flgF = gs " ") →
      (st'.fSet = false → st'.flgF = gs " ") := by
  intro fuel
  induction fuel with
  | zero => intro st l st' pos hp hinv; exact ParseResult.noConfusion hp
  | succ fuel ih =>
    intro st l st' pos hp hinv
    cases l with
    | nil =>
      simp only [parseLoopF, ParseResult.ok.injEq] at hp
      obtain ⟨h1, h2⟩ := hp
      subst h1
      exact hinv
    | cons s rest =>
      simp only [parseLoopF] at hp
      cases hstep : parseOne st s rest with
      | stop pos2 =>
        rw [hstep] at hp
        injection hp with h1 h2
        subst h1
        exact hinv
      | err =>
        rw [hstep] at hp
        exact ParseResult.noConfusion hp
      | cont st2 rest2 =>
        rw [hstep] at hp
        exact ih st2 rest2 st' pos hp (parseOne_fset_inv st s rest st2 rest2 hstep hinv)

/-- `parseArgs` preserves the invariant "an unset `-F` still holds its
default value". -/
theorem parseArgs_fset_invariant (st : FlagState) (l : List GoStr)
    (st' : FlagState) (pos : List GoStr)
    (hp : parseArgs st l = ParseResult.ok st' pos)
    (hinv : st.fSet = false → st.flgF = gs " ") :
    st'.fSet = false → st'.flgF = gs " " :=
  parseLoopF_fset_invariant (l.length + 1) st l st' pos hp hinv

/-- C8: after flag processing, the synthesis-parameter record satisfies the
implication invariants: a non-default field separator implies auto-split;
auto-split implies line mode; pipe mode implies line mode; a non-empty
in-place backup pattern implies in-place mode. -/
theorem flag_implications (args : List GoStr) (p : Prog)
    (h : golfMain args = GolfOutcome.prog p) :
    (p.FlgF ≠ gs " " → p.FlgA = true) ∧
    (p.FlgA = true → p.FlgN = true) ∧
    (p.FlgP = true → p.FlgN = true) ∧
    (p.InPlaceBak ≠ [] → p.InPlace = true) := by
  unfold golfMain at h
  split at h
  · exact GolfOutcome.noConfusion h
  · exact GolfOutcome.noConfusion h
  · next newArgs hdec =>
    split at h
    · exact GolfOutcome.noConfusion h
    · next st pos hparse =>
      split at h
      · exact GolfOutcome.noConfusion h
      · injection h with h1
        subst h1
        have hinv := parseArgs_fset_invariant initFlagState (newArgs.drop 1) st pos
          hparse (fun _ => rfl)
        simp only [mkProg]
        by_cases hf : st.fSet = true
        · simp only [hf, if_true]
          refine ⟨?_, ?_, ?_, ?_⟩
          · intro _
            simp
          · intro ha
            simp [ha]
          · intro hp
            simp [hp]
          · intro hb
            have hlen : 0 < st.inplaceBak.length := List.length_pos.mpr hb
            simp [hlen]
        · have hf0 : st.fSet = false := by
            cases hfs : st.fSet
            · rfl
            · exact absurd hfs hf
          simp only [hf0, Bool.false_eq_true, if_false]
          refine ⟨?_, ?_, ?_, ?_⟩
          · intro hne
            exact absurd (hinv hf0) hne
          · intro ha
            simp [ha]
          · intro hp
            simp [hp]
          · intro hb
            have hlen : 0 < st.inplaceBak.length := List.length_pos.mpr hb
            simp [hlen]

/-- Witness for `flag_implications` at a concrete invocation. -/
theorem flag_implications_witness :
    ∃ p, golfMain [gs "golf", gs "-F", gs ":"] = GolfOutcome.prog p ∧
      p.FlgA = true ∧ p.FlgN = true := by
  have himp := flag_implications [gs "golf", gs "-F", gs ":"] _ rfl
  exact ⟨_, rfl, himp.1 (by decide), himp.2.1 (himp.1 (by decide))⟩

/-!
## C5: declustering a boolean-flag cluster is equivalent to separate flags
-/

/-- A single character is never a registered long-flag name. -/
theorem longFlags_single (c : Char) : longFlags [c] = false := by
  have h1 : ([c] : GoStr) ≠ gs "BEGIN" := by
    rw [show (gs "BEGIN" : GoStr) = ['B', 'E', 'G', 'I', 'N'] from rfl]
    simp
  have h2 : ([c] : GoStr) ≠ gs "END" := by
    rw [show (gs "END" : GoStr) = ['E', 'N', 'D'] from rfl]
    simp
  have h3 : ([c] : GoStr) ≠ gs "goVer" := by
    rw [show (gs "goVer" : GoStr) = ['g', 'o', 'V', 'e', 'r'] from rfl]
    simp
  have h4 : ([c] : GoStr) ≠ gs "help" := by
    rw [show (gs "help" : GoStr) = ['h', 'e', 'l', 'p'] from rfl]
    simp
  simp [longFlags, h1, h2, h3, h4]

/-- A string of boolean-flag letters is never a registered long-flag name. -/
theorem longFlags_allbool (cs : List Char)
    (h : ∀ c ∈ cs, shortBoolFlags [c] = true) : longFlags cs = false := by
  cases hlf : longFlags cs
  · rfl
  · exfalso
    simp only [longFlags, Bool.or_eq_true, decide_eq_true_eq] at hlf
    rcases hlf with ((h1 | h1) | h1) | h1 <;> subst h1
    · exact absurd (h 'B' (by decide)) (by decide)
    · exact absurd (h 'E' (by decide)) (by decide)
    · exact absurd (h 'o' (by decide)) (by decide)
    · exact absurd (h 'e' (by decide)) (by decide)

/-- A cluster of boolean-flag letters is never the `--` token. -/
theorem cluster_ne_dashdash (cs : List Char)
    (h : ∀ c ∈ cs, shortBoolFlags [c] = true) : ('-' :: cs : GoStr) ≠ gs "--" := by
  intro he
  rw [show (gs "--" : GoStr) = ['-', '-'] from rfl] at he
  simp only [List.cons.injEq, true_and] at he
  subst he
  exact absurd (h '-' (by decide)) (by decide)

/-- Expanding a cluster made only of boolean-flag letters never errors and
produces one `-x` token per letter. -/
theorem expandCluster_allbool :
    ∀ (cs : List Char), (∀ c ∈ cs, shortBoolFlags [c] = true) → ∀ (vlen j : Nat),
      expandCluster vlen j cs = Except.ok (cs.map (fun c => ['-', c])) := by
  intro cs
  induction cs with
  | nil => intro _ vlen j; rfl
  | cons c cs' ih =>
    intro h vlen j
    have hc : shortBoolFlags [c] = true := h c (by simp)
    have hrest : ∀ x ∈ cs', shortBoolFlags [x] = true := fun x hm => h x (by simp [hm])
    simp only [expandCluster, hc, Bool.not_true, Bool.and_false, Bool.false_eq_true,
      if_false]
    rw [ih hrest vlen (j + 1)]
    simp

/-- Processing the one-letter tokens of boolean flags appends them to the
output unchanged. -/
theorem declusterAux_singles :
    ∀ (cs : List Char), (∀ c ∈ cs, shortBoolFlags [c] = true) →
    ∀ (args vs : List GoStr) (i : Nat) (res : List GoStr),
      declusterAux args (cs.map (fun c => ['-', c]) ++ vs) i res =
        declusterAux args vs (i + cs.length) (res ++ cs.map (fun c => ['-', c])) := by
  intro cs
  induction cs with
  | nil => intro _ args vs i res; simp
  | cons c cs' ih =>
    intro h args vs i res
    have hc : shortBoolFlags [c] = true := h c (by simp)
    have hrest : ∀ x ∈ cs', shortBoolFlags [x] = true := fun x hm => h x (by simp [hm])
    have hcd : c ≠ '-' := by
      intro he
      subst he
      exact absurd hc (by decide)
    simp only [List.map_cons, List.cons_append, declusterAux]
    rw [if_neg, if_neg]
    · have hex : expandCluster (['-', c] : GoStr).length 0 ((['-', c] : GoStr).drop 1) =
          Except.ok [['-', c]] := by
        have := expandCluster_allbool [c] (by simpa using hc) 2 0
        simpa using this
      rw [hex]
      show declusterAux args (cs'.map (fun c => ['-', c]) ++ vs) (i + 1)
          (res ++ [['-', c]]) = _
      rw [ih hrest args vs (i + 1) (res ++ [['-', c]])]
      have e1 : i + 1 + cs'.length = i + (c :: cs').length := by
        simp only [List.length_cons]
        omega
      rw [e1, List.append_assoc]
      rfl
    · intro he
      rw [show (gs "--" : GoStr) = ['-', '-'] from rfl] at he
      simp at he
      exact hcd he
    · simp only [List.drop_succ_cons, List.drop_zero]
      rw [longFlags_single c]
      simp

/-- Two `declusterAux` runs over the same `--`-free token list behave
identically whatever the full vectors, indexes, or continuations are, as long
as the continuations agree. -/
theorem declusterAux_parallel :
    ∀ (pre : List GoStr), gs "--" ∉ pre →
    ∀ (args1 args2 rest1 rest2 : List GoStr),
      (∀ (res : List GoStr) (i1 i2 : Nat),
        declusterAux args1 rest1 i1 res = declusterAux args2 rest2 i2 res) →
    ∀ (i1 i2 : Nat) (res : List GoStr),
      declusterAux args1 (pre ++ rest1) i1 res =
        declusterAux args2 (pre ++ rest2) i2 res := by
  intro pre
  induction pre with
  | nil =>
    intro _ a1 a2 r1 r2 htail i1 i2 res
    exact htail res i1 i2
  | cons v pre' ih =>
    intro hmem a1 a2 r1 r2 htail i1 i2 res
    have hv : v ≠ gs "--" := fun he => hmem (by simp [he])
    have hmem' : gs "--" ∉ pre' := fun hm => hmem (by simp [hm])
    cases v with
    | nil => simp [declusterAux]
    | cons c crest =>
      simp only [List.cons_append, declusterAux]
      by_cases hcond : (decide (c ≠ '-') || longFlags ((c :: crest).drop 1)) = true
      · rw [if_pos hcond, if_pos hcond]
        exact ih hmem' a1 a2 r1 r2 htail (i1 + 1) (i2 + 1) (res ++ [c :: crest])
      · rw [if_neg hcond, if_neg hcond, if_neg hv, if_neg hv]
        cases hex : expandCluster (c :: crest).length 0 ((c :: crest).drop 1) with
        | error e => rfl
        | ok ex =>
          exact ih hmem' a1 a2 r1 r2 htail (i1 + 1) (i2 + 1) (res ++ ex)

/-- `declusterAux` over a `--`-free token list ignores the full vector and
the index. -/
theorem declusterAux_indep (vs : List GoStr) (hmem : gs "--" ∉ vs)
    (args1 args2 : List GoStr) (i1 i2 : Nat) (res : List GoStr) :
    declusterAux args1 vs i1 res = declusterAux args2 vs i2 res := by
  have h := declusterAux_parallel vs hmem args1 args2 [] []
    (fun res i1 i2 => rfl) i1 i2 res
  simpa using h

/-- Declustering a cluster of boolean flags produces the same vector as
declustering the same flags given as separate tokens, in any `--`-free
context. -/
theorem decluster_cluster_eq (a0 : GoStr) (pre suf : List GoStr) (cs : List Char)
    (hbool : ∀ c ∈ cs, shortBoolFlags [c] = true)
    (hpre : gs "--" ∉ pre) (hsuf : gs "--" ∉ suf) :
    declusterGo (a0 :: (pre ++ ('-' :: cs) :: suf)) =
      declusterGo (a0 :: (pre ++ cs.map (fun c => ['-', c]) ++ suf)) := by
  simp only [declusterGo, List.append_assoc]
  apply declusterAux_parallel pre hpre
  intro res i1 i2
  have hlf : longFlags cs = false := longFlags_allbool cs hbool
  have hdd : ('-' :: cs : GoStr) ≠ gs "--" := cluster_ne_dashdash cs hbool
  simp only [declusterAux]
  rw [if_neg, if_neg hdd]
  · rw [show (('-' :: cs : GoStr)).drop 1 = cs from rfl,
      expandCluster_allbool cs hbool ('-' :: cs : GoStr).length 0]
    show declusterAux _ suf (i1 + 1) (res ++ cs.map (fun c => ['-', c])) = _
    rw [declusterAux_singles cs hbool _ suf i2 res]
    exact declusterAux_indep suf hsuf _ _ _ _ _
  · simp only [List.drop_succ_cons, List.drop_zero]
    rw [hlf]
    simp

/-- C5: for a cluster made only of no-argument boolean flags, declustering
and parsing the cluster token yields the same synthesis-parameter outcome as
supplying each constituent flag as a separate token in the same order, in
any surrounding `--`-free context. -/
theorem cluster_equivalence (a0 : GoStr) (pre suf : List GoStr) (cs : List Char)
    (_hne : cs ≠ []) (hbool : ∀ c ∈ cs, shortBoolFlags [c] = true)
    (hpre : gs "--" ∉ pre) (hsuf : gs "--" ∉ suf) :
    golfMain (a0 :: (pre ++ ('-' :: cs) :: suf)) =
      golfMain (a0 :: (pre ++ cs.map (fun c => ['-', c]) ++ suf)) := by
  have h := decluster_cluster_eq a0 pre suf cs hbool hpre hsuf
  unfold golfMain
  rw [h]

/-- Witness for `cluster_equivalence`: `-lan` behaves exactly like
`-l -a -n`. -/
theorem cluster_equivalence_witness :
    golfMain [gs "golf", gs "-lan", gs "-e", gs "Print(1)"] =
      golfMain [gs "golf", gs "-l", gs "-a", gs "-n", gs "-e", gs "Print(1)"] := by
  have h := cluster_equivalence (gs "golf") [] [gs "-e", gs "Print(1)"]
    ['l', 'a', 'n'] (by decide) (by decide) (by decide) (by decide)
  simpa using h

/-!
## Prelude: `GSplit`

`GSplit` dispatches on the separator: a single space means `strings.Fields`
(whitespace-run splitting), a `/pat/` separator is handed to the external
regular-expression collaborator (`regexp.Compile` + `Split`, modelled as a
parameter; a compile failure is a fatal `Die`), anything else is a literal
`strings.Split`.
-/

/-- Embedding of `unicode.IsSpace` (Go's White_Space property). -/
def isGoSpace (c : Char) : Bool :=
  c = ' ' || c = '\t' || c = '\n' || c = Char.ofNat 11 || c = Char.ofNat 12 ||
  c = '\r' || c = Char.ofNat 0x85 || c = Char.ofNat 0xA0 ||
  c = Char.ofNat 0x1680 || (0x2000 ≤ c.toNat && c.toNat ≤ 0x200A) ||
  c = Char.ofNat 0x2028 || c = Char.ofNat 0x2029 || c = Char.ofNat 0x202F ||
  c = Char.ofNat 0x205F || c = Char.ofNat 0x3000

/-- The scanner behind `strings.Fields`: walk the string collecting the
current field in `acc`, closing it at each whitespace character. -/
def fieldsAux : GoStr → GoStr → List GoStr
  | [], acc => if acc = [] then [] else [acc.reverse]
  | c :: cs, acc =>
    if isGoSpace c then
      if acc = [] then fieldsAux cs []
      else acc.reverse :: fieldsAux cs []
    else fieldsAux cs (c :: acc)

/-- Embedding of `strings.Fields`. -/
def goFields (s : GoStr) : List GoStr := fieldsAux s []

/-- Modifying the head with a nil prepend is the identity. -/
theorem modifyHead_nil_rev (l : List (List Char)) :
    l.modifyHead (List.reverse ([] : GoStr) ++ ·) = l := by
  cases l <;> simp

/-- Modifying the head with the identity function is the identity. -/
theorem modifyHead_fun_id (l : List (List Char)) :
    l.modifyHead (fun x => x) = l := by
  cases l <;> rfl

/-- The fields scanner equals "split at every whitespace character and drop
the empty pieces", for any accumulator. -/
theorem fieldsAux_spec :
    ∀ (s acc : GoStr),
      fieldsAux s acc =
        ((s.splitOnP isGoSpace).modifyHead (acc.reverse ++ ·)).filter
          (fun l => !l.isEmpty) := by
  intro s
  induction s with
  | nil =>
    intro acc
    by_cases hacc : acc = []
    · subst hacc
      simp [fieldsAux]
    · simp [fieldsAux, hacc]
  | cons c cs ih =>
    intro acc
    by_cases hsp : isGoSpace c = true
    · by_cases hacc : acc = []
      · subst hacc
        simp only [fieldsAux, hsp, if_true, List.splitOnP_cons]
        rw [ih []]
        simp [modifyHead_nil_rev, modifyHead_fun_id]
      · simp only [fieldsAux, hsp, if_true, if_neg hacc, List.splitOnP_cons]
        rw [ih []]
        rw [modifyHead_nil_rev]
        simp [List.filter_cons, hacc]
    · simp only [fieldsAux, hsp, Bool.false_eq_true, if_false, List.splitOnP_cons]
      rw [ih (c :: acc), List.modifyHead_modifyHead]
      congr 2
      funext x
      simp

/-- `strings.Fields` splits at whitespace and discards the empty pieces. -/
theorem goFields_spec (s : GoStr) :
    goFields s = (s.splitOnP isGoSpace).filter (fun l => !l.isEmpty) := by
  rw [goFields, fieldsAux_spec s [], modifyHead_nil_rev]

/-- The splitting loop of `strings.Split` for a non-empty separator:
repeatedly cut at the leftmost occurrence. -/
def splitGo (sep : GoStr) (hsep : sep ≠ []) (s : GoStr) : List GoStr :=
  match hidx : goIndexOf sep s with
  | none => [s]
  | some i => s.take i :: splitGo sep hsep (s.drop (i + sep.length))
termination_by s.length
decreasing_by
  have hb := goIndexOf_bound sep s _ hidx
  have h1 : 0 < sep.length := List.length_pos.mpr hsep
  simp [List.length_drop]
  omega

/-- Unfolding equation of `splitGo` when the separator no longer occurs. -/
theorem splitGo_eq_none (sep : GoStr) (hsep : sep ≠ []) (s : GoStr)
    (h : goIndexOf sep s = none) : splitGo sep hsep s = [s] := by
  rw [splitGo, h]

/-- Unfolding equation of `splitGo` at a found occurrence. -/
theorem splitGo_eq_some (sep : GoStr) (hsep : sep ≠ []) (s : GoStr) (i : Nat)
    (h : goIndexOf sep s = some i) :
    splitGo sep hsep s = s.take i :: splitGo sep hsep (s.drop (i + sep.length)) := by
  rw [splitGo, h]

/-- Embedding of `strings.Split` (an empty separator explodes the string
into one-character pieces). -/
def goStringsSplit (s sep : GoStr) : List GoStr :=
  if hsep : sep = [] then s.map (fun c => [c])
  else splitGo sep hsep s

/-- Splitting on a single-character separator cuts at every occurrence of
that character (keeping empty pieces), i.e. it is `List.splitOn`. -/
theorem splitGo_single (c : Char) (hnz : ([c] : GoStr) ≠ []) :
    ∀ s : GoStr, splitGo [c] hnz s = s.splitOn c := by
  intro s
  induction s with
  | nil =>
    have h0 : goIndexOf [c] ([] : GoStr) = none := by
      simp [goIndexOf, List.isPrefixOf]
    rw [splitGo_eq_none _ _ _ h0]
    rfl
  | cons a t ih =>
    by_cases hca : c = a
    · subst hca
      have h0 : goIndexOf [c] (c :: t) = some 0 := by
        simp [goIndexOf, List.isPrefixOf]
      rw [splitGo_eq_some _ _ _ _ h0]
      simp only [List.splitOn, List.splitOnP_cons, beq_self_eq_true, if_true]
      simp only [List.splitOn] at ih
      simp [ih]
    · have hp : ([c] : GoStr).isPrefixOf (a :: t) = false := by
        simp [List.isPrefixOf]
        exact hca
      have heq : goIndexOf [c] (a :: t) = (goIndexOf [c] t).map (· + 1) := by
        simp [goIndexOf, hp]
      have hbe : (a == c) = false := by
        simp
        exact fun h => hca h.symm
      cases ht : goIndexOf [c] t with
      | none =>
        have h0 : goIndexOf [c] (a :: t) = none := by rw [heq, ht]; rfl
        rw [splitGo_eq_none _ _ _ h0]
        have ht2 := splitGo_eq_none [c] hnz t ht
        rw [ht2] at ih
        simp only [List.splitOn, List.splitOnP_cons, hbe, Bool.false_eq_true, if_false]
        simp only [List.splitOn] at ih
        rw [← ih]
        rfl
      | some j =>
        have h0 : goIndexOf [c] (a :: t) = some (j + 1) := by rw [heq, ht]; rfl
        rw [splitGo_eq_some _ _ _ _ h0]
        have ht2 := splitGo_eq_some [c] hnz t j ht
        rw [ht2] at ih
        simp only [List.splitOn, List.splitOnP_cons, hbe, Bool.false_eq_true, if_false]
        simp only [List.splitOn] at ih
        rw [← ih]
        simp [List.take_succ_cons, List.drop_succ_cons]

/-- Modelled from the spec: the external regular-expression collaborator's
`Split` for the compiled character class `[0-9]` with limit `-1` — the input
is cut around every digit character (each match is a single digit). -/
def digitClassSplit (s : GoStr) : List GoStr :=
  s.splitOnP (fun c => '0' ≤ c && c ≤ '9')

/-- Outcome of `GSplit`: a fatal `Die` (invalid regexp separator) or the
field list. -/
inductive SplitResult where
  | fatal
  | ok (fields : List GoStr)
deriving Repr, DecidableEq

/-- GSplit splits an input string, with some golf affordances: embedding of
`prelude.GSplit`, with the external regexp engine passed as `compileRe`
(`none` models a compile error, on which `GSplit` dies). -/
def GSplit (compileRe : GoStr → Option (GoStr → List GoStr)) (sep input : GoStr) :
    SplitResult :=
  if sep = gs " " then SplitResult.ok (goFields input)
  else if 1 < sep.length ∧ sep.head? = some '/' ∧ sep.getLast? = some '/' then
    match compileRe ((sep.drop 1).dropLast) with
    | none => SplitResult.fatal
    | some re => SplitResult.ok (re input)
  else SplitResult.ok (goStringsSplit input sep)

/-- C7: with a single-space separator `GSplit` splits on whitespace runs,
discarding leading/trailing whitespace (`"a  b\tc"` gives `["a","b","c"]`);
with a `/pat/` separator it splits by the compiled pattern (`"a1b2c"` with
`/[0-9]/` gives `["a","b","c"]`); with any other separator it splits
literally (`"a:b:c"` with `":"` gives `["a","b","c"]`). -/
theorem gsplit_policy (compileRe : GoStr → Option (GoStr → List GoStr))
    (hre : compileRe (gs "[0-9]") = some digitClassSplit) :
    (∀ input, GSplit compileRe (gs " ") input =
      SplitResult.ok ((input.splitOnP isGoSpace).filter (fun l => !l.isEmpty))) ∧
    GSplit compileRe (gs " ") (gs "a  b\tc") =
      SplitResult.ok [gs "a", gs "b", gs "c"] ∧
    GSplit compileRe (gs "/[0-9]/") (gs "a1b2c") =
      SplitResult.ok [gs "a", gs "b", gs "c"] ∧
    (∀ sep input, sep ≠ gs " " →
      ¬(1 < sep.length ∧ sep.head? = some '/' ∧ sep.getLast? = some '/') →
      GSplit compileRe sep input = SplitResult.ok (goStringsSplit input sep)) ∧
    GSplit compileRe (gs ":") (gs "a:b:c") =
      SplitResult.ok [gs "a", gs "b", gs "c"] := by
  have hspace : ∀ input, GSplit compileRe (gs " ") input =
      SplitResult.ok ((input.splitOnP isGoSpace).filter (fun l => !l.isEmpty)) := by
    intro input
    rw [GSplit, if_pos rfl, goFields_spec]
  have hlit : ∀ sep input, sep ≠ gs " " →
      ¬(1 < sep.length ∧ sep.head? = some '/' ∧ sep.getLast? = some '/') →
      GSplit compileRe sep input = SplitResult.ok (goStringsSplit input sep) := by
    intro sep input h1 h2
    rw [GSplit, if_neg h1, if_neg h2]
  refine ⟨hspace, ?_, ?_, hlit, ?_⟩
  · rw [hspace]
    decide
  · rw [GSplit, if_neg (by decide), if_pos (by refine ⟨by decide, rfl, by decide⟩)]
    have hpat : ((gs "/[0-9]/" : GoStr).drop 1).dropLast = gs "[0-9]" := by decide
    rw [hpat, hre]
    decide
  · rw [hlit (gs ":") (gs "a:b:c") (by decide) (by decide)]
    have : goStringsSplit (gs "a:b:c") (gs ":") = (gs "a:b:c").splitOn ':' := by
      rw [goStringsSplit, dif_neg (by decide : (gs ":" : GoStr) ≠ [])]
      exact splitGo_single ':' (by decide) (gs "a:b:c")
    rw [this]
    decide

/-- Witness for `gsplit_policy` with a concrete engine implementing the
digit character class. -/
theorem gsplit_policy_witness :
    GSplit (fun pat => if pat = gs "[0-9]" then some digitClassSplit else none)
        (gs " ") (gs "a  b\tc") = SplitResult.ok [gs "a", gs "b", gs "c"] ∧
    GSplit (fun pat => if pat = gs "[0-9]" then some digitClassSplit else none)
        (gs "/[0-9]/") (gs "a1b2c") = SplitResult.ok [gs "a", gs "b", gs "c"] ∧
    GSplit (fun pat => if pat = gs "[0-9]" then some digitClassSplit else none)
        (gs ":") (gs "a:b:c") = SplitResult.ok [gs "a", gs "b", gs "c"] := by
  have h := gsplit_policy
    (fun pat => if pat = gs "[0-9]" then some digitClassSplit else none)
    (by simp)
  exact ⟨h.2.1, h.2.2.1, h.2.2.2.2⟩

end Golf
